import Mathlib

/-!
Shallow embedding of the FIITChain repository (Rust) for checking its
natural-language specification.

Conventions of the embedding:
* SHA-256 digests, RSA verifying keys and RSA signatures are opaque byte
  blobs in the source; they are modelled as natural numbers.  Nothing in
  the verified code inspects their bytes.
* RSA PKCS#1 v1.5 verification is an injected primitive in the source
  (`verifier.verify(raw_tx, signature)`); it is modelled as an abstract
  boolean function passed as a parameter.  The message argument is the
  transaction itself (the source derives the message bytes as a pure
  function of the transaction, so abstracting the serialization does not
  change which verdicts are expressible).
* Rust `HashMap` / `HashSet` are modelled as association lists / lists;
  the embedded code only uses insert, remove, lookup and membership, never
  iteration order, so this is faithful.
* Machine integers are modelled as `Nat`; where the source's `u32`
  arithmetic can overflow, the reduction `% 2 ^ 32` is applied exactly
  where release-mode Rust wraps (`u32` addition wraps; summing then
  reducing once is equal to reducing at each step).
-/

namespace Multisig

/-- Output of `multisig/src/tx.rs` (`Output`): a `u32` value, the ordered
multisig verifier list and the `usize` threshold. -/
structure Output where
  value : Nat
  verifiers : List Nat
  threshold : Nat
deriving DecidableEq, Repr

/-- Input of `multisig/src/tx.rs` (`Input`): referenced output, its index
(`u8`) and the ordered signature list. -/
structure Input where
  output_tx_hash : Nat
  output_idx : Nat
  signatures : List Nat
deriving DecidableEq, Repr

/-- Finalized transaction of `multisig/src/tx.rs` (`Tx`).  The hash field
is the SHA-256 digest of the canonical encoding in the source; here it is
an opaque number. -/
structure Tx where
  hash : Nat
  inputs : List Input
  outputs : List Output
deriving DecidableEq, Repr

/-- UTXO key of `multisig/src/utxo.rs`: (source tx hash, output index). -/
abbrev UTXO := Nat × Nat

/-- The UTXO of an input, `From<&Input> for UTXO` in
`multisig/src/handler.rs`. -/
def Input.utxo (i : Input) : UTXO := (i.output_tx_hash, i.output_idx)

/-- `UTXOPool` of `multisig/src/utxo.rs`: a map from UTXO to Output,
modelled as an association list with unique keys. -/
abbrev UTXOPool := List (UTXO × Output)

/-- `UTXOPool::utxo_output`. -/
def utxoOutput (p : UTXOPool) (u : UTXO) : Option Output :=
  (p.find? fun e => decide (e.1 = u)).map (·.2)

/-- `UTXOPool::contains`. -/
def poolContains (p : UTXOPool) (u : UTXO) : Bool :=
  (utxoOutput p u).isSome

/-- `UTXOPool::remove_utxo`. -/
def removeUtxo (p : UTXOPool) (u : UTXO) : UTXOPool :=
  p.filter fun e => !decide (e.1 = u)

/-- `UTXOPool::add_utxo` (`HashMap::insert`: replaces an existing key). -/
def addUtxo (p : UTXOPool) (u : UTXO) (o : Output) : UTXOPool :=
  removeUtxo p u ++ [(u, o)]

/-- The signature-counting loop of `Handler::is_tx_valid`
(`multisig/src/handler.rs` lines 94-103): for each signature, scan the
output's verifiers in order and count the signature as soon as one
verifier accepts it (`break`).  No verifier is removed from consideration
after accepting a signature. -/
def countValidSigs (verify : Nat → Tx → Nat → Bool) (tx : Tx)
    (verifiers : List Nat) : List Nat → Nat
  | [] => 0
  | s :: rest =>
    (if verifiers.any fun v => verify v tx s then 1 else 0) +
      countValidSigs verify tx verifiers rest

/-- Sum of the transaction's output values (`tx.outputs().iter().map(..).sum()`),
accumulated exactly; the source's `u32` sum is this value reduced
`% 2 ^ 32`. -/
def outSum (tx : Tx) : Nat :=
  (tx.outputs.map (·.value)).sum

/-- The per-input loop of `Handler::is_tx_valid` (`multisig/src/handler.rs`
lines 70-114), factored out of the final comparison: walks the inputs with
the set of already used outputs and the exact accumulated input sum,
returning `none` on any early `return false` of the source and
`some in_sum` when every input passed its checks. -/
def inSumOfInputs (verify : Nat → Tx → Nat → Bool) (pool : UTXOPool) (tx : Tx) :
    List Input → List UTXO → Nat → Option Nat
  | [], _, inSum => some inSum
  | i :: rest, used, inSum =>
    if i.utxo ∈ used then none
    else
      match utxoOutput pool i.utxo with
      | none => none
      | some out =>
        if countValidSigs verify tx out.verifiers i.signatures < out.threshold then
          none
        else
          inSumOfInputs verify pool tx rest (i.utxo :: used) (inSum + out.value)

/-- `Handler::is_tx_valid` of `multisig/src/handler.rs`: the per-input
checks followed by the final `in_sum >= out_sum` comparison, which the
source performs on `u32` values (release-mode wrapping, hence the
`% 2 ^ 32`). -/
def isTxValid (verify : Nat → Tx → Nat → Bool) (pool : UTXOPool) (tx : Tx) : Bool :=
  match inSumOfInputs verify pool tx tx.inputs [] 0 with
  | none => false
  | some inSum => decide (inSum % 2 ^ 32 ≥ outSum tx % 2 ^ 32)

/-- Modelled from the spec: the same validator with the final value
comparison carried out in exact (at least 64-bit) integer arithmetic, as
the specification's rule 4 demands.  Used only to compare against the
source-translated `Multisig.isTxValid`. -/
def isTxValidExact (verify : Nat → Tx → Nat → Bool) (pool : UTXOPool) (tx : Tx) : Bool :=
  match inSumOfInputs verify pool tx tx.inputs [] 0 with
  | none => false
  | some inSum => decide (inSum ≥ outSum tx)

/-- An overapproximation of any input sum the validator can accumulate:
the sum over all inputs of the referenced output's value, counting 0 for
an input that does not resolve in the pool. -/
def resolvedBound (pool : UTXOPool) (inputs : List Input) : Nat :=
  (inputs.map fun i => ((utxoOutput pool i.utxo).map (·.value)).getD 0).sum

/-- The accumulated input sum returned by the per-input loop is bounded by
the starting accumulator plus `resolvedBound` (the pool is never mutated
during validation). -/
theorem inSumOfInputs_le (verify : Nat → Tx → Nat → Bool) (pool : UTXOPool) (tx : Tx)
    (inputs : List Input) :
    ∀ used s r, inSumOfInputs verify pool tx inputs used s = some r →
      r ≤ s + resolvedBound pool inputs := by
  induction inputs with
  | nil =>
    intro used s r h
    rw [inSumOfInputs] at h
    cases h
    simp [resolvedBound]
  | cons i rest ih =>
    intro used s r h
    rw [inSumOfInputs] at h
    by_cases hmem : i.utxo ∈ used
    · rw [if_pos hmem] at h
      exact absurd h (by simp)
    · rw [if_neg hmem] at h
      cases hout : utxoOutput pool i.utxo with
      | none => rw [hout] at h; exact absurd h (by simp)
      | some out =>
        rw [hout] at h
        simp only at h
        by_cases hth : countValidSigs verify tx out.verifiers i.signatures < out.threshold
        · rw [if_pos hth] at h
          exact absurd h (by simp)
        · rw [if_neg hth] at h
          have hr := ih _ _ _ h
          have hb : resolvedBound pool (i :: rest) = out.value + resolvedBound pool rest := by
            simp [resolvedBound, hout]
          omega

end Multisig

namespace Fiitcoin

/-- Output of `fiitcoin/src/tx.rs` (`Output`): a `u32` value and one RSA
verifying key. -/
structure Output where
  value : Nat
  verifying_key : Nat
deriving DecidableEq, Repr

/-- Input of `fiitcoin/src/tx.rs` (`Input`): referenced output, its `u8`
index and an optional signature (absent on unsigned transactions). -/
structure Input where
  output_tx_hash : Nat
  output_idx : Nat
  signature : Option Nat
deriving DecidableEq, Repr

/-- Finalized transaction of `fiitcoin/src/tx.rs` (`Tx`). -/
structure Tx where
  hash : Nat
  inputs : List Input
  outputs : List Output
deriving DecidableEq, Repr

/-- UTXO key of `fiitcoin/src/utxo.rs`. -/
abbrev UTXO := Nat × Nat

/-- `input_to_utxo` of `fiitcoin/src/handler.rs`. -/
def Input.utxo (i : Input) : UTXO := (i.output_tx_hash, i.output_idx)

/-- `UTXOPool` of `fiitcoin/src/utxo.rs`, as an association list with
unique keys. -/
abbrev UTXOPool := List (UTXO × Output)

/-- `UTXOPool::utxo_output`. -/
def utxoOutput (p : UTXOPool) (u : UTXO) : Option Output :=
  (p.find? fun e => decide (e.1 = u)).map (·.2)

/-- `UTXOPool::contains`. -/
def poolContains (p : UTXOPool) (u : UTXO) : Bool :=
  (utxoOutput p u).isSome

/-- `UTXOPool::remove_utxo`. -/
def removeUtxo (p : UTXOPool) (u : UTXO) : UTXOPool :=
  p.filter fun e => !decide (e.1 = u)

/-- `UTXOPool::add_utxo`. -/
def addUtxo (p : UTXOPool) (u : UTXO) (o : Output) : UTXOPool :=
  removeUtxo p u ++ [(u, o)]

/-- Sum of a transaction's output values, accumulated exactly; the
source's `u32` sum is this `% 2 ^ 32`. -/
def outSum (tx : Tx) : Nat :=
  (tx.outputs.map (·.value)).sum

/-- The per-input loop of `TxHandler::is_tx_valid` (`fiitcoin/src/handler.rs`
lines 45-102), factored out of the final comparison.  The enumeration
index is threaded because the source signs and verifies the per-input
message `raw_tx_from_one_input(inputs, outputs, i)`; verification is the
abstract `verify key tx i sig`.  `Signature::try_from` of the opaque byte
blob is modelled as always succeeding (a failing conversion is just
another way for `verify` to answer false).  Returns `none` on any early
`return false` and `some in_sum` (exact sum) otherwise. -/
def inSumOfInputs (verify : Nat → Tx → Nat → Nat → Bool) (pool : UTXOPool) (tx : Tx) :
    List (Nat × Input) → List UTXO → Nat → Option Nat
  | [], _, inSum => some inSum
  | (idx, i) :: rest, used, inSum =>
    if i.utxo ∈ used then none
    else
      match utxoOutput pool i.utxo with
      | none => none
      | some out =>
        match i.signature with
        | none => none
        | some sig =>
          if verify out.verifying_key tx idx sig then
            inSumOfInputs verify pool tx rest (i.utxo :: used) (inSum + out.value)
          else none

/-- `TxHandler::is_tx_valid` of `fiitcoin/src/handler.rs`: per-input checks
followed by `out_sum > 0 && in_sum >= out_sum` on `u32` values. -/
def isTxValid (verify : Nat → Tx → Nat → Nat → Bool) (pool : UTXOPool) (tx : Tx) : Bool :=
  match inSumOfInputs verify pool tx tx.inputs.enum [] 0 with
  | none => false
  | some inSum =>
    decide (outSum tx % 2 ^ 32 > 0) && decide (inSum % 2 ^ 32 ≥ outSum tx % 2 ^ 32)

/-- `TxHandler::apply_tx`: remove every input's UTXO, then add one UTXO
per output keyed by the transaction hash and output index. -/
def applyTx (pool : UTXOPool) (tx : Tx) : UTXOPool :=
  (tx.outputs.enum.foldl (fun p io => addUtxo p (tx.hash, io.1) io.2)
    (tx.inputs.foldl (fun p i => removeUtxo p i.utxo) pool))

/-- The body of `TxHandler::handle_independent` (`fiitcoin/src/handler.rs`
lines 110-133): one pass over the wave's transactions with the wave's
hash set fixed up front.  Returns (pool after applications, applied
transactions, deferred dependent transactions), both lists in iteration
order. -/
def handleIndependentGo (verify : Nat → Tx → Nat → Nat → Bool) (txSet : List Nat) :
    UTXOPool → List Tx → UTXOPool × List Tx × List Tx
  | pool, [] => (pool, [], [])
  | pool, t :: rest =>
    if t.inputs.all fun i => poolContains pool i.utxo then
      if isTxValid verify pool t then
        let res := handleIndependentGo verify txSet (applyTx pool t) rest
        (res.1, t :: res.2.1, res.2.2)
      else handleIndependentGo verify txSet pool rest
    else if t.inputs.any fun i => decide (i.output_tx_hash ∈ txSet) then
      let res := handleIndependentGo verify txSet pool rest
      (res.1, res.2.1, t :: res.2.2)
    else handleIndependentGo verify txSet pool rest

/-- `TxHandler::handle_independent`: the wave pass with
`tx_set = txs.iter().map(hash)`. -/
def handleIndependent (verify : Nat → Tx → Nat → Nat → Bool) (pool : UTXOPool)
    (txs : List Tx) : UTXOPool × List Tx × List Tx :=
  handleIndependentGo verify (txs.map (·.hash)) pool txs

/-- The wave loop of `Handler::handle` (`fiitcoin/src/handler.rs` lines
162-176).  The Rust `loop` has no built-in bound, so it is embedded with
explicit fuel; `none` marks fuel exhaustion, i.e. the source loop has not
returned within that many waves. -/
def handleLoop (verify : Nat → Tx → Nat → Nat → Bool) :
    Nat → UTXOPool → List Tx → List Tx → Option (UTXOPool × List Tx)
  | 0, _, _, _ => none
  | fuel + 1, pool, handled, toHandle =>
    let res := handleIndependent verify pool toHandle
    let handled := handled ++ res.2.1
    if res.2.2.isEmpty then some (res.1, handled)
    else handleLoop verify fuel res.1 handled res.2.2

/-- Membership characterization of `poolContains`. -/
theorem poolContains_iff (p : UTXOPool) (u : UTXO) :
    poolContains p u = true ↔ ∃ e ∈ p, e.1 = u := by
  rw [poolContains, utxoOutput]
  simp [List.find?_isSome]

/-- Keys surviving `removeUtxo` were keys of the original pool. -/
theorem poolContains_of_removeUtxo (p : UTXOPool) (u w : UTXO)
    (h : poolContains (removeUtxo p u) w = true) : poolContains p w = true := by
  rw [poolContains_iff] at h ⊢
  obtain ⟨e, he, hew⟩ := h
  exact ⟨e, (List.mem_filter.mp he).1, hew⟩

/-- A key of `addUtxo p u o` is a key of `p` or is `u` itself. -/
theorem poolContains_of_addUtxo (p : UTXOPool) (u : UTXO) (o : Output) (w : UTXO)
    (h : poolContains (addUtxo p u o) w = true) :
    poolContains p w = true ∨ w = u := by
  rw [poolContains_iff] at h
  obtain ⟨e, he, hew⟩ := h
  rcases List.mem_append.mp he with he | he
  · exact Or.inl ((poolContains_iff p w).mpr ⟨e, (List.mem_filter.mp he).1, hew⟩)
  · simp only [List.mem_singleton] at he
    subst he
    exact Or.inr hew.symm

/-- Keys after folding `removeUtxo` over the inputs were keys before. -/
theorem poolContains_of_foldl_remove (l : List Input) :
    ∀ (p : UTXOPool) (w : UTXO),
      poolContains (l.foldl (fun p i => removeUtxo p i.utxo) p) w = true →
        poolContains p w = true := by
  induction l with
  | nil => intro p w h; exact h
  | cons i rest ih =>
    intro p w h
    exact poolContains_of_removeUtxo p i.utxo w (ih (removeUtxo p i.utxo) w h)

/-- Keys after folding `addUtxo` over the enumerated outputs of `t` are
old keys or are keyed by the hash of `t`. -/
theorem poolContains_of_foldl_add (h0 : Nat) (l : List (Nat × Output)) :
    ∀ (p : UTXOPool) (w : UTXO),
      poolContains (l.foldl (fun p io => addUtxo p (h0, io.1) io.2) p) w = true →
        poolContains p w = true ∨ w.1 = h0 := by
  induction l with
  | nil => intro p w h; exact Or.inl h
  | cons io rest ih =>
    intro p w h
    rcases ih (addUtxo p (h0, io.1) io.2) w h with h1 | h1
    · rcases poolContains_of_addUtxo p (h0, io.1) io.2 w h1 with h2 | h2
      · exact Or.inl h2
      · subst h2; exact Or.inr rfl
    · exact Or.inr h1

/-- A key of `applyTx pool t` is a key of `pool` or is produced by `t`
(its first component is the hash of `t`). -/
theorem poolContains_of_applyTx (pool : UTXOPool) (t : Tx) (w : UTXO)
    (h : poolContains (applyTx pool t) w = true) :
    poolContains pool w = true ∨ w.1 = t.hash := by
  rw [applyTx] at h
  rcases poolContains_of_foldl_add t.hash t.outputs.enum _ w h with h1 | h1
  · exact Or.inl (poolContains_of_foldl_remove t.inputs pool w h1)
  · exact Or.inr h1

/-- The deferred list produced by a wave pass is a sublist of the wave's
input list. -/
theorem handleIndependentGo_dep_sublist (v : Nat → Tx → Nat → Nat → Bool)
    (s : List Nat) :
    ∀ (l : List Tx) (pool : UTXOPool),
      List.Sublist (handleIndependentGo v s pool l).2.2 l := by
  intro l
  induction l with
  | nil => intro pool; exact List.Sublist.refl _
  | cons t rest ih =>
    intro pool
    rw [handleIndependentGo]
    by_cases h1 : (t.inputs.all fun i => poolContains pool i.utxo) = true
    · rw [if_pos h1]
      by_cases h2 : isTxValid v pool t = true
      · rw [if_pos h2]
        exact (ih (applyTx pool t)).cons t
      · rw [if_neg h2]
        exact (ih pool).cons t
    · rw [if_neg h1]
      by_cases h3 : (t.inputs.any fun i => decide (i.output_tx_hash ∈ s)) = true
      · rw [if_pos h3]
        exact (ih pool).cons₂ t
      · rw [if_neg h3]
        exact (ih pool).cons t

/-- Every transaction deferred by a wave pass references, by hash, some
member of the wave's hash set. -/
theorem handleIndependentGo_dep_refs (v : Nat → Tx → Nat → Nat → Bool)
    (s : List Nat) :
    ∀ (l : List Tx) (pool : UTXOPool) (t : Tx),
      t ∈ (handleIndependentGo v s pool l).2.2 →
        (t.inputs.any fun i => decide (i.output_tx_hash ∈ s)) = true := by
  intro l
  induction l with
  | nil => intro pool t h; exact absurd h (by simp [handleIndependentGo])
  | cons u rest ih =>
    intro pool t h
    rw [handleIndependentGo] at h
    by_cases h1 : (u.inputs.all fun i => poolContains pool i.utxo) = true
    · rw [if_pos h1] at h
      by_cases h2 : isTxValid v pool u = true
      · rw [if_pos h2] at h
        exact ih (applyTx pool u) t h
      · rw [if_neg h2] at h
        exact ih pool t h
    · rw [if_neg h1] at h
      by_cases h3 : (u.inputs.any fun i => decide (i.output_tx_hash ∈ s)) = true
      · rw [if_pos h3] at h
        simp only at h
        rcases List.mem_cons.mp h with rfl | h
        · exact h3
        · exact ih pool t h
      · rw [if_neg h3] at h
        exact ih pool t h

/-- A key of the pool produced by a wave pass is a key of the input pool
or is produced by one of the wave's transactions. -/
theorem handleIndependentGo_pool_keys (v : Nat → Tx → Nat → Nat → Bool)
    (s : List Nat) :
    ∀ (l : List Tx) (pool : UTXOPool) (w : UTXO),
      poolContains (handleIndependentGo v s pool l).1 w = true →
        poolContains pool w = true ∨ ∃ t ∈ l, w.1 = t.hash := by
  intro l
  induction l with
  | nil => intro pool w h; exact Or.inl h
  | cons t rest ih =>
    intro pool w h
    rw [handleIndependentGo] at h
    by_cases h1 : (t.inputs.all fun i => poolContains pool i.utxo) = true
    · rw [if_pos h1] at h
      by_cases h2 : isTxValid v pool t = true
      · rw [if_pos h2] at h
        simp only at h
        rcases ih (applyTx pool t) w h with h3 | ⟨u, hu, huw⟩
        · rcases poolContains_of_applyTx pool t w h3 with h4 | h4
          · exact Or.inl h4
          · exact Or.inr ⟨t, List.mem_cons_self t rest, h4⟩
        · exact Or.inr ⟨u, List.mem_cons_of_mem t hu, huw⟩
      · rw [if_neg h2] at h
        rcases ih pool w h with h3 | ⟨u, hu, huw⟩
        · exact Or.inl h3
        · exact Or.inr ⟨u, List.mem_cons_of_mem t hu, huw⟩
    · rw [if_neg h1] at h
      by_cases h3 : (t.inputs.any fun i => decide (i.output_tx_hash ∈ s)) = true
      · rw [if_pos h3] at h
        simp only at h
        rcases ih pool w h with h4 | ⟨u, hu, huw⟩
        · exact Or.inl h4
        · exact Or.inr ⟨u, List.mem_cons_of_mem t hu, huw⟩
      · rw [if_neg h3] at h
        rcases ih pool w h with h4 | ⟨u, hu, huw⟩
        · exact Or.inl h4
        · exact Or.inr ⟨u, List.mem_cons_of_mem t hu, huw⟩

/-- Unfolding lemma for `handleIndependent`. -/
theorem handleIndependent_def (v : Nat → Tx → Nat → Nat → Bool) (pool : UTXOPool)
    (txs : List Tx) :
    handleIndependent v pool txs = handleIndependentGo v (txs.map (·.hash)) pool txs :=
  rfl

/-- A key of the pool produced by a terminating wave loop is a key of the
starting pool or is produced by one of the pending transactions. -/
theorem handleLoop_pool_keys (v : Nat → Tx → Nat → Nat → Bool) :
    ∀ (fuel : Nat) (pool : UTXOPool) (handled l : List Tx)
      (pool2 : UTXOPool) (h2 : List Tx) (w : UTXO),
      handleLoop v fuel pool handled l = some (pool2, h2) →
      poolContains pool2 w = true →
        poolContains pool w = true ∨ ∃ t ∈ l, w.1 = t.hash := by
  intro fuel
  induction fuel with
  | zero => intro pool handled l pool2 h2 w h; exact absurd h (by simp [handleLoop])
  | succ n ih =>
    intro pool handled l pool2 h2 w h hw
    rw [handleLoop] at h
    by_cases hdep : (handleIndependent v pool l).2.2.isEmpty = true
    · rw [if_pos hdep] at h
      simp only [Option.some.injEq, Prod.mk.injEq] at h
      rw [← h.1] at hw
      rw [handleIndependent_def] at hw
      exact handleIndependentGo_pool_keys v _ l pool w hw
    · rw [if_neg hdep] at h
      rcases ih _ _ _ _ _ w h hw with h3 | ⟨u, hu, huw⟩
      · rw [handleIndependent_def] at h3
        rcases handleIndependentGo_pool_keys v _ l pool w h3 with h4 | h4
        · exact Or.inl h4
        · exact Or.inr h4
      · rw [handleIndependent_def] at hu
        exact Or.inr
          ⟨u, (handleIndependentGo_dep_sublist v _ l pool).subset hu, huw⟩

/-- If a wave is a fixpoint (applies nothing and defers its whole
nonempty input), the wave loop never returns: the identical wave recurs
for every amount of fuel. -/
theorem handleLoop_fixpoint_diverges (v : Nat → Tx → Nat → Nat → Bool)
    (pool : UTXOPool) (l : List Tx)
    (hfix : handleIndependent v pool l = (pool, [], l)) (hne : l ≠ []) :
    ∀ (fuel : Nat) (handled : List Tx), handleLoop v fuel pool handled l = none := by
  intro fuel
  induction fuel with
  | zero => intro handled; rfl
  | succ n ih =>
    intro handled
    rw [handleLoop]
    simp only [hfix, List.isEmpty_iff, List.append_nil]
    rw [if_neg hne]
    exact ih handled

/-- A minimum-rank element of a nonempty list of transactions. -/
theorem exists_min_rank (r : Tx → Nat) :
    ∀ (l : List Tx), l ≠ [] → ∃ a ∈ l, ∀ b ∈ l, r a ≤ r b := by
  intro l
  induction l with
  | nil => intro h; exact absurd rfl h
  | cons x xs ih =>
    intro _
    by_cases hxs : xs = []
    · subst hxs
      refine ⟨x, List.mem_cons_self x [], ?_⟩
      intro b hb
      rcases List.mem_cons.mp hb with rfl | hb
      · exact le_refl _
      · exact absurd hb (by simp)
    · obtain ⟨a, ha, hmin⟩ := ih hxs
      by_cases hfa : r x ≤ r a
      · refine ⟨x, List.mem_cons_self x xs, ?_⟩
        intro b hb
        rcases List.mem_cons.mp hb with rfl | hb
        · exact le_refl _
        · exact le_trans hfa (hmin b hb)
      · refine ⟨a, List.mem_cons_of_mem x ha, ?_⟩
        intro b hb
        rcases List.mem_cons.mp hb with rfl | hb
        · exact le_of_lt (lt_of_not_le hfa)
        · exact hmin b hb

/-- Under a rank function that strictly decreases along hash references
within the batch (an acyclicity witness), a wave over a nonempty pending
list cannot defer everything: the deferred list is strictly shorter. -/
theorem handleIndependent_dep_shorter (v : Nat → Tx → Nat → Nat → Bool)
    (txs : List Tx) (r : Tx → Nat)
    (hr : ∀ t ∈ txs, ∀ i ∈ t.inputs, ∀ u ∈ txs, u.hash = i.output_tx_hash → r u < r t)
    (l : List Tx) (pool : UTXOPool) (hsub : List.Sublist l txs) (hne : l ≠ []) :
    (handleIndependent v pool l).2.2.length < l.length := by
  have hsublist := handleIndependentGo_dep_sublist v (l.map (·.hash)) l pool
  rcases Nat.lt_or_ge (handleIndependent v pool l).2.2.length l.length with hlt | hge
  · exact hlt
  · exfalso
    have heq : (handleIndependent v pool l).2.2 = l :=
      hsublist.eq_of_length (le_antisymm hsublist.length_le hge)
    obtain ⟨t, htl, hmin⟩ := exists_min_rank r l hne
    have htl2 : t ∈ (handleIndependentGo v (l.map (·.hash)) pool l).2.2 := by
      have heq2 : (handleIndependentGo v (l.map (·.hash)) pool l).2.2 = l := heq
      rw [heq2]
      exact htl
    have href := handleIndependentGo_dep_refs v (l.map (·.hash)) l pool t htl2
    obtain ⟨i, hi, hih⟩ := List.any_eq_true.mp href
    have hmem : i.output_tx_hash ∈ l.map (·.hash) := of_decide_eq_true hih
    obtain ⟨u, hu, huh⟩ := List.mem_map.mp hmem
    have hlt2 := hr t (hsub.subset htl) i hi u (hsub.subset hu) huh
    have hle := hmin u hu
    omega

/-- Under an acyclicity witness for the batch, the wave loop returns
within one more wave than there are candidates: each wave strictly
shrinks the pending list. -/
theorem handleLoop_terminates_aux (v : Nat → Tx → Nat → Nat → Bool)
    (txs : List Tx) (r : Tx → Nat)
    (hr : ∀ t ∈ txs, ∀ i ∈ t.inputs, ∀ u ∈ txs, u.hash = i.output_tx_hash → r u < r t) :
    ∀ (fuel : Nat) (l : List Tx) (pool : UTXOPool) (handled : List Tx),
      List.Sublist l txs → l.length < fuel →
        (handleLoop v fuel pool handled l).isSome = true := by
  intro fuel
  induction fuel with
  | zero => intro l pool handled hsub hlen; omega
  | succ n ih =>
    intro l pool handled hsub hlen
    rw [handleLoop]
    by_cases hdep : (handleIndependent v pool l).2.2.isEmpty = true
    · rw [if_pos hdep]
      rfl
    · rw [if_neg hdep]
      have hne : l ≠ [] := by
        intro hl
        subst hl
        exact hdep (by rfl)
      have hshort := handleIndependent_dep_shorter v txs r hr l pool hsub hne
      refine ih _ _ _ ?_ (by omega)
      rw [handleIndependent_def]
      exact (handleIndependentGo_dep_sublist v _ l pool).trans hsub

end Fiitcoin

namespace Chain

/-- `COINBASE` of `blockchain/src/block.rs`. -/
def COINBASE : Nat := 625

/-- `CUT_OFF_AGE` of `blockchain/src/blockchain.rs`: capacity of the
`ConstGenericRingBuffer` holding the chain. -/
def CUT_OFF_AGE : Nat := 12

/-- `Block` of `blockchain/src/block.rs`: hash, parent hash, coinbase
transaction and the ordered non-coinbase transactions.  Hashes are opaque
(the source computes them by SHA-256 over the canonical preimage). -/
structure Block where
  hash : Nat
  prev : Nat
  coinbase : Fiitcoin.Tx
  txs : List Fiitcoin.Tx
deriving DecidableEq, Repr

/-- `Tx::coinbase(value, address)` of `fiitcoin/src/tx.rs`: no inputs, a
single output of the given value to the given address.  The digest of the
canonical encoding is abstracted as `h`. -/
def coinbaseTx (h : Nat) (value : Nat) (address : Nat) : Fiitcoin.Tx :=
  { hash := h, inputs := [], outputs := [{ value := value, verifying_key := address }] }

/-- `IncompleteBlock::new(prev, address)` followed by `add_tx` of each
transaction and `finalize()` (`blockchain/src/block.rs`): the coinbase is
a fresh `Tx::coinbase(COINBASE, address)`; the block hash (digest of the
preimage) is abstracted as `bhash`. -/
def mkBlock (bhash prev cbHash address : Nat) (txs : List Fiitcoin.Tx) : Block :=
  { hash := bhash, prev := prev, coinbase := coinbaseTx cbHash COINBASE address, txs := txs }

/-- `BlockNode` of `blockchain/src/blockchain.rs`: a block with its
post-state UTXO pool. -/
abbrev BlockNode := Block × Fiitcoin.UTXOPool

/-- `Blockchain` state: the ring buffer (front = oldest) plus the
mempool (`TxPool`, a map from tx hash to transaction). -/
structure State where
  chain : List BlockNode
  mempool : List (Nat × Fiitcoin.Tx)
deriving DecidableEq

/-- `ConstGenericRingBuffer::push` with capacity `CUT_OFF_AGE`: appends at
the back, evicting the oldest element when full. -/
def rbPush (c : List BlockNode) (n : BlockNode) : List BlockNode :=
  if c.length < CUT_OFF_AGE then c ++ [n] else c.drop 1 ++ [n]

/-- Pushing onto the ring buffer always leaves the pushed node at the
back. -/
theorem rbPush_getLast (c : List BlockNode) (n : BlockNode) :
    (rbPush c n).getLast? = some n := by
  rw [rbPush]
  split <;> exact List.getLast?_concat _

/-- `Blockchain::new(genesis, utxo_pool)`. -/
def blockchainNew (genesis : Block) (pool : Fiitcoin.UTXOPool) : State :=
  { chain := [(genesis, pool)], mempool := [] }

/-- `Blockchain::at_block_hash`: first node (oldest first) whose block
hash matches. -/
def atBlockHash (c : List BlockNode) (h : Nat) : Option BlockNode :=
  c.find? fun bn => decide (bn.1.hash = h)

/-- `Blockchain::block_at_max_height`: the back (most recently pushed)
node of the ring buffer; the source's `expect` on an empty chain is
modelled by `Option`. -/
def blockAtMaxHeight (st : State) : Option Block :=
  st.chain.getLast?.map (·.1)

/-- `Blockchain::utxo_pool_at_max_height`. -/
def utxoPoolAtMaxHeight (st : State) : Option Fiitcoin.UTXOPool :=
  st.chain.getLast?.map (·.2)

/-- `TxPool::remove`. -/
def mempoolRemove (m : List (Nat × Fiitcoin.Tx)) (h : Nat) : List (Nat × Fiitcoin.Tx) :=
  m.filter fun e => !decide (e.1 = h)

/-- `TxPool::add` (`HashMap::insert`, replacing on hash collision). -/
def mempoolAdd (m : List (Nat × Fiitcoin.Tx)) (tx : Fiitcoin.Tx) : List (Nat × Fiitcoin.Tx) :=
  mempoolRemove m tx.hash ++ [(tx.hash, tx)]

/-- `Blockchain::add_tx`: delegate to the mempool. -/
def addTx (st : State) (tx : Fiitcoin.Tx) : State :=
  { st with mempool := mempoolAdd st.mempool tx }

/-- `Blockchain::add_block` of `blockchain/src/blockchain.rs`: look the
parent up by `block.prev`; run the default handler's wave loop on a clone
of the parent's pool; reject when not every block transaction was
accepted; on success remove the block's transactions from the mempool and
push the new node.  The embedded wave loop carries fuel
`block.txs.length + 1`; that suffices whenever the source loop terminates
(each wave either strictly shrinks the pending list or repeats forever),
so `none` models a diverging `add_block` call. -/
def addBlock (verify : Nat → Fiitcoin.Tx → Nat → Nat → Bool) (st : State)
    (b : Block) : Option (Bool × State) :=
  match atBlockHash st.chain b.prev with
  | none => some (false, st)
  | some node =>
    match Fiitcoin.handleLoop verify (b.txs.length + 1) node.2 [] b.txs with
    | none => none
    | some res =>
      if res.2.length ≠ b.txs.length then some (false, st)
      else
        some (true,
          { chain := rbPush st.chain (b, res.1),
            mempool := b.txs.foldl (fun m t => mempoolRemove m t.hash) st.mempool })

end Chain

namespace Consensus

/-- `ByzantineBehaviour` of `consensus/src/node.rs`.  The `Mix` probability
is irrelevant to the embedded claims; the per-round `gen_bool` draws of the
injected `StdRng` are modelled as a pre-drawn boolean stream. -/
inductive ByzBehaviour
  | dead
  | selfish
  | mix
deriving DecidableEq, Repr

/-- `ByzantineNode` of `consensus/src/node.rs`.  Transaction sets
(`HashSet<Tx>`) are lists of ids; `rng` is the pre-drawn stream of
`gen_bool` results for `Mix`. -/
structure ByzNode where
  behaviour : ByzBehaviour
  num_rounds : Nat
  followees : List Bool
  pending_txs : List Nat
  choosen_txs : List Nat
  rng : List Bool
deriving DecidableEq, Repr

/-- `ByzantineNode::new(behaviour, num_rounds, rng)`. -/
def byzNew (behaviour : ByzBehaviour) (rounds : Nat) (rng : List Bool) : ByzNode :=
  { behaviour := behaviour, num_rounds := rounds, followees := [],
    pending_txs := [], choosen_txs := [], rng := rng }

/-- `Node::pending_txs_set` for `ByzantineNode`: stores the seed set in
both `choosen_txs` (a clone) and `pending_txs`. -/
def byzPendingTxsSet (n : ByzNode) (txs : List Nat) : ByzNode :=
  { n with choosen_txs := txs, pending_txs := txs }

/-- `Node::followers_send` for `ByzantineNode`: returns `choosen_txs`. -/
def byzFollowersSend (n : ByzNode) : List Nat :=
  n.choosen_txs

/-- `Node::followees_receive` for `ByzantineNode`: decrements the round
counter and recomputes `choosen_txs` from the behaviour (empty for Dead,
the seed set for Selfish, a coin flip between the two for Mix). -/
def byzFolloweesReceive (n : ByzNode) (_candidates : List (Nat × Nat)) : ByzNode :=
  let n := { n with num_rounds := n.num_rounds - 1 }
  match n.behaviour with
  | .dead => { n with choosen_txs := [] }
  | .selfish => { n with choosen_txs := n.pending_txs }
  | .mix =>
    match n.rng with
    | b :: rest =>
      if b then { n with choosen_txs := [], rng := rest }
      else { n with choosen_txs := n.pending_txs, rng := rest }
    | [] => { n with choosen_txs := n.pending_txs }

/-- `TrustedNode` of `consensus/src/node.rs`.  The `f64` probabilities are
modelled as exact rationals: every probability exercised by the test
harness (multiples of 0.01, 0.05, 0.1, …) and every product with the node
count `N` used in the claims is exactly representable in `f64`, so the
rational computation agrees with the source's floating-point one on those
inputs. -/
structure TrustedNode where
  p_graph : ℚ
  p_byzantine : ℚ
  p_tx_dist : ℚ
  num_rounds : Nat
  followees : List Bool
  pending_txs : List Nat
  received_txs : List (Nat × List Nat)
  consensus_reached : List Nat
  consensus_threshold : Nat

/-- `TrustedNode::new`. -/
def trustedNew (pGraph pByzantine pTxDist : ℚ) (rounds : Nat) : TrustedNode :=
  { p_graph := pGraph, p_byzantine := pByzantine, p_tx_dist := pTxDist,
    num_rounds := rounds, followees := [], pending_txs := [],
    received_txs := [], consensus_reached := [], consensus_threshold := 0 }

/-- `Node::followees_set` for `TrustedNode` (`consensus/src/node.rs` lines
63-68): `probable_followers = (N * p_graph).ceil()`,
`probable_byzantines = (N * p_byzantine).ceil()`, and
`consensus_threshold = f64::min(probable_followers - probable_byzantines, 1.) as usize`.
The `as usize` cast saturates negative values to 0 (`Int.toNat`); the
minuend is integer-valued so the truncation is exact. -/
def followeesSet (N : Nat) (n : TrustedNode) (followees : List Bool) : TrustedNode :=
  let probableFollowers : ℤ := ⌈(N : ℚ) * n.p_graph⌉
  let probableByzantines : ℤ := ⌈(N : ℚ) * n.p_byzantine⌉
  { n with followees := followees,
           consensus_threshold := (min (probableFollowers - probableByzantines) 1).toNat }

/-- Modelled from the spec: the threshold formula the specification states
for `followees_set`, namely
max(1, ceil(N * p_graph) - ceil(N * p_byzantine)).  Used only to compare
against the source-translated `Consensus.followeesSet`. -/
def specThreshold (N : Nat) (pGraph pByzantine : ℚ) : Nat :=
  (max (⌈(N : ℚ) * pGraph⌉ - ⌈(N : ℚ) * pByzantine⌉) 1).toNat

end Consensus

/-!
Concrete fixtures shared by the counterexamples and witnesses below.
-/

/-- A verification oracle under which exactly the verifying key 7 accepts
(every signature, as the abstract primitive permits). -/
def vOnly7 : Nat → Multisig.Tx → Nat → Bool := fun v _ _ => decide (v = 7)

/-- A pool holding one multisig output of value 10 locked to verifiers
7 and 8 with threshold 2, produced by transaction 1 at index 0. -/
def msPool1 : Multisig.UTXOPool := [((1, 0), ⟨10, [7, 8], 2⟩)]

/-- A transaction spending that output with the two distinct signatures 3
and 4 on its single input. -/
def msTx1 : Multisig.Tx := ⟨2, [⟨1, 0, [3, 4]⟩], [⟨5, [9], 1⟩]⟩

/-- A pool holding two single-sig outputs of value 2^31 each (exact input
sum 2^32, one more than the largest `u32`). -/
def msPoolBig : Multisig.UTXOPool := [((1, 0), ⟨2 ^ 31, [7], 1⟩), ((1, 1), ⟨2 ^ 31, [7], 1⟩)]

/-- A transaction spending both 2^31 outputs into a single output of
value 1. -/
def msTxBig : Multisig.Tx := ⟨2, [⟨1, 0, [3]⟩, ⟨1, 1, [3]⟩], [⟨1, [9], 1⟩]⟩

/-- A small multisig transaction whose sums stay far below 2^32. -/
def msTxSmall : Multisig.Tx := ⟨2, [⟨1, 0, [3]⟩], [⟨5, [9], 1⟩]⟩

/-- A pool resolving `msTxSmall`'s input to a value-10 output. -/
def msPoolSmall : Multisig.UTXOPool := [((1, 0), ⟨10, [7], 1⟩)]

/-- A single-sig verification oracle that accepts everything. -/
def vTrue : Nat → Fiitcoin.Tx → Nat → Nat → Bool := fun _ _ _ _ => true

/-- A genesis block (hash 1, all-zeros parent, coinbase transaction 10). -/
def genesisB : Chain.Block := Chain.mkBlock 1 0 10 100 []

/-- The genesis UTXO pool crediting the genesis coinbase, as the test
harness builds it. -/
def pool0 : Fiitcoin.UTXOPool := [((10, 0), ⟨625, 100⟩)]

/-- The chain state right after `Blockchain::new(genesisB, pool0)`. -/
def st0 : Chain.State := Chain.blockchainNew genesisB pool0

/-- An empty sibling block of genesis (hash 2, coinbase transaction 11). -/
def fork1 : Chain.Block := Chain.mkBlock 2 1 11 100 []

/-- A second empty sibling block of genesis (hash 3, coinbase
transaction 12). -/
def fork2 : Chain.Block := Chain.mkBlock 3 1 12 100 []

/-- The state after accepting `fork1` on `st0`. -/
def st1 : Chain.State := { chain := [(genesisB, pool0), (fork1, pool0)], mempool := [] }

/-- The state after accepting `fork2` on `st1`. -/
def st2 : Chain.State :=
  { chain := [(genesisB, pool0), (fork1, pool0), (fork2, pool0)], mempool := [] }

/-- The state after accepting `fork1` on `st1` a second time: the
duplicate node is simply pushed again. -/
def st1dup : Chain.State :=
  { chain := [(genesisB, pool0), (fork1, pool0), (fork1, pool0)], mempool := [] }

/-- A block whose claimed parent (hash 99) is not in the chain. -/
def orphanB : Chain.Block := Chain.mkBlock 4 99 13 100 []

/-- Two transactions referencing each other's hashes (a hash cycle,
representable because digests are opaque in the embedding). -/
def txA : Fiitcoin.Tx := ⟨1, [⟨2, 0, some 9⟩], [⟨5, 100⟩]⟩

/-- The partner of `txA` in the hash cycle. -/
def txB : Fiitcoin.Tx := ⟨2, [⟨1, 0, some 9⟩], [⟨5, 100⟩]⟩

/-- A lone transaction referencing an absent output, with no reference
into its own batch. -/
def txC : Fiitcoin.Tx := ⟨1, [⟨2, 0, some 9⟩], [⟨5, 100⟩]⟩

/-- A Dead Byzantine node seeded with transaction 42 and no
`followees_receive` call yet. -/
def deadNode42 : Consensus.ByzNode :=
  Consensus.byzPendingTxsSet (Consensus.byzNew .dead 5 []) [42]


/-!
Claim C1: multisig signature-threshold validation.
-/

/-- C1 counterexample: in `Multisig.isTxValid` no verifier is consumed.
Under an oracle where only verifier 7 accepts, the two distinct
signatures 3 and 4 on one input are both counted by verifier 7
(verifier 8 certifies nothing), `valid_sigs` reaches 2, and the
transaction passes a threshold of 2 — contradicting the claim that an
input whose signatures all verify under only one verifier cannot satisfy
a threshold of 2 or more. -/
theorem C1_single_verifier_satisfies_threshold_two :
    Multisig.countValidSigs vOnly7 msTx1 [7, 8] [3, 4] = 2 ∧
    vOnly7 8 msTx1 3 = false ∧ vOnly7 8 msTx1 4 = false ∧
    (3 : Nat) ≠ 4 ∧
    (Multisig.utxoOutput msPool1 (1, 0)).map (·.threshold) = some 2 ∧
    Multisig.isTxValid vOnly7 msPool1 msTx1 = true := by
  decide

/-- C1 amended: the pairing consumes only the signature, never the
verifier: `valid_sigs` equals the number of signature entries (with
multiplicity) accepted by at least one verifier of the referenced output,
so a single verifier may certify an arbitrary number of signatures. -/
theorem C1_valid_sigs_counts_any_accepting_verifier
    (verify : Nat → Multisig.Tx → Nat → Bool) (tx : Multisig.Tx)
    (verifiers : List Nat) (sigs : List Nat) :
    Multisig.countValidSigs verify tx verifiers sigs =
      (sigs.filter fun s => verifiers.any fun v => verify v tx s).length := by
  induction sigs with
  | nil => rfl
  | cons s rest ih =>
    rw [Multisig.countValidSigs, List.filter_cons, ih]
    cases h : verifiers.any fun v => verify v tx s with
    | false => simp
    | true => simp [Nat.add_comm]

/-!
Claim C4: the trusted consensus threshold formula.
-/

/-- C4: the source computes `f64::min(ceil - ceil, 1.) as usize` where
its own comment ("minimum 1") and the specification demand
`max(1, ceil - ceil)`.  At N = 4, p_graph = 1, p_byzantine = 1/4 the code
yields 1 while the spec formula yields 3; at N = 4, p_graph = 0,
p_byzantine = 0 the code yields 0, below the promised minimum of 1. -/
theorem C4_threshold_uses_min_instead_of_max :
    (Consensus.followeesSet 4 (Consensus.trustedNew 1 (1 / 4) 0 10) []).consensus_threshold
        = 1 ∧
    Consensus.specThreshold 4 1 (1 / 4) = 3 ∧
    (Consensus.followeesSet 4 (Consensus.trustedNew 0 0 0 10) []).consensus_threshold = 0 ∧
    Consensus.specThreshold 4 0 0 = 1 := by
  refine ⟨?_, ?_, ?_, ?_⟩ <;>
    · norm_num [Consensus.followeesSet, Consensus.trustedNew, Consensus.specThreshold]
      try decide

/-!
Claim C5: Dead Byzantine nodes.
-/

/-- C5 counterexample: a freshly seeded Dead node, before any
`followees_receive` call, returns its seed set from `followers_send`,
not the empty set — `choosen_txs` is only cleared by the first receive. -/
theorem C5_dead_node_sends_seed_in_first_round :
    deadNode42.behaviour = .dead ∧
    Consensus.byzFollowersSend deadNode42 = [42] ∧
    ([42] : List Nat) ≠ [] := by
  decide

/-- C5 amended: a Dead node returns the empty set from `followers_send`
after every `followees_receive` call (hence in every round following its
first receive); before any receive it still returns its seed set. -/
theorem C5_dead_node_empty_after_receive (n : Consensus.ByzNode)
    (candidates : List (Nat × Nat)) (h : n.behaviour = .dead) :
    Consensus.byzFollowersSend (Consensus.byzFolloweesReceive n candidates) = [] := by
  simp [Consensus.byzFolloweesReceive, Consensus.byzFollowersSend, h]

/-- C5 amended, witness at the concrete Dead node. -/
theorem C5_dead_node_empty_after_receive_witness :
    deadNode42.behaviour = .dead ∧
    Consensus.byzFollowersSend (Consensus.byzFolloweesReceive deadNode42 [(42, 0)]) = [] :=
  ⟨by decide, C5_dead_node_empty_after_receive deadNode42 [(42, 0)] (by decide)⟩

/-!
Claim C6: rejection of vacuous transactions.
-/

/-- C6 counterexample: the multisig validator has no positivity check on
the output sum; a transaction with no inputs and no outputs (output sum
0) is accepted. -/
theorem C6_multisig_accepts_vacuous_tx :
    Multisig.outSum ⟨1, [], []⟩ = 0 ∧
    Multisig.isTxValid vOnly7 [] ⟨1, [], []⟩ = true := by
  decide

/-- C6 amended: only the single-signature validator enforces
`sum of outputs > 0`: every transaction whose output values sum to 0 is
rejected by `Fiitcoin.isTxValid` (the multisig validator lacks the
check). -/
theorem C6_fiitcoin_rejects_vacuous_tx (verify : Nat → Fiitcoin.Tx → Nat → Nat → Bool)
    (pool : Fiitcoin.UTXOPool) (tx : Fiitcoin.Tx) (h : Fiitcoin.outSum tx = 0) :
    Fiitcoin.isTxValid verify pool tx = false := by
  rw [Fiitcoin.isTxValid]
  cases hs : Fiitcoin.inSumOfInputs verify pool tx tx.inputs.enum [] 0 with
  | none => rfl
  | some s => simp [h]

/-- C6 amended, witness: the vacuous transaction is rejected by the
single-signature validator. -/
theorem C6_fiitcoin_rejects_vacuous_tx_witness :
    Fiitcoin.outSum ⟨1, [], []⟩ = 0 ∧
    Fiitcoin.isTxValid vTrue [] ⟨1, [], []⟩ = false :=
  ⟨by decide, C6_fiitcoin_rejects_vacuous_tx vTrue [] ⟨1, [], []⟩ (by decide)⟩

/-!
Claim C9: precision of the value-conservation comparison.
-/

/-- C9 counterexample: both validators sum in 32-bit arithmetic.  Spending
two outputs of 2^31 each (exact input sum 2^32) into an output of value 1,
`Multisig.isTxValid` wraps the input sum to 0 and rejects, while the exact
(at least 64-bit) comparison demanded by the claim accepts; the verdicts
disagree, so the comparison is not performed in 64-bit precision. -/
theorem C9_32bit_wraparound_changes_verdict :
    Multisig.resolvedBound msPoolBig msTxBig.inputs = 2 ^ 32 ∧
    Multisig.isTxValid vOnly7 msPoolBig msTxBig = false ∧
    Multisig.isTxValidExact vOnly7 msPoolBig msTxBig = true := by
  decide

/-- C9 amended: the sums are 32-bit (wrapping); the verdict agrees with
the exact integer comparison only on transactions whose input and output
sums both stay below 2^32. -/
theorem C9_verdicts_agree_below_32bit (verify : Nat → Multisig.Tx → Nat → Bool)
    (pool : Multisig.UTXOPool) (tx : Multisig.Tx)
    (hin : Multisig.resolvedBound pool tx.inputs < 2 ^ 32)
    (hout : Multisig.outSum tx < 2 ^ 32) :
    Multisig.isTxValid verify pool tx = Multisig.isTxValidExact verify pool tx := by
  rw [Multisig.isTxValid, Multisig.isTxValidExact]
  cases h : Multisig.inSumOfInputs verify pool tx tx.inputs [] 0 with
  | none => rfl
  | some s =>
    have hs := Multisig.inSumOfInputs_le verify pool tx tx.inputs [] 0 s h
    simp only
    rw [Nat.mod_eq_of_lt (by omega), Nat.mod_eq_of_lt hout]

/-- C9 amended, witness on a small transaction with sums far below
2^32. -/
theorem C9_verdicts_agree_below_32bit_witness :
    Multisig.resolvedBound msPoolSmall msTxSmall.inputs < 2 ^ 32 ∧
    Multisig.outSum msTxSmall < 2 ^ 32 ∧
    Multisig.isTxValid vOnly7 msPoolSmall msTxSmall =
      Multisig.isTxValidExact vOnly7 msPoolSmall msTxSmall :=
  ⟨by decide, by decide,
    C9_verdicts_agree_below_32bit vOnly7 msPoolSmall msTxSmall (by decide) (by decide)⟩

/-!
Claim C10: atomicity of add_block on failure.
-/

/-- C10: whenever `Blockchain::add_block` returns false — parent not
found, or not every block transaction accepted — the state (retained
nodes with their pools, tip, and mempool) is returned unchanged:
validation ran on a clone of the parent's pool that is discarded. -/
theorem C10_addBlock_atomic_on_failure (v : Nat → Fiitcoin.Tx → Nat → Nat → Bool)
    (st : Chain.State) (b : Chain.Block) (st' : Chain.State)
    (h : Chain.addBlock v st b = some (false, st')) : st' = st := by
  rw [Chain.addBlock] at h
  cases hf : Chain.atBlockHash st.chain b.prev with
  | none =>
    rw [hf] at h
    simp only [Option.some.injEq, Prod.mk.injEq] at h
    exact h.2.symm
  | some node =>
    rw [hf] at h
    simp only at h
    cases hl : Fiitcoin.handleLoop v (b.txs.length + 1) node.2 [] b.txs with
    | none => rw [hl] at h; exact absurd h (by simp)
    | some res =>
      rw [hl] at h
      simp only at h
      by_cases hlen : res.2.length ≠ b.txs.length
      · rw [if_pos hlen] at h
        simp only [Option.some.injEq, Prod.mk.injEq] at h
        exact h.2.symm
      · rw [if_neg hlen] at h
        simp only [Option.some.injEq, Prod.mk.injEq] at h
        exact absurd h.1 (by simp)

/-- C10 witness: adding a block with an unknown parent fails and returns
the state unchanged. -/
theorem C10_addBlock_atomic_on_failure_witness :
    Chain.addBlock vTrue st0 orphanB = some (false, st0) ∧ st0 = st0 :=
  ⟨by decide, C10_addBlock_atomic_on_failure vTrue st0 orphanB st0 (by decide)⟩

/-!
Claim C2: tip selection on equal height.
-/

/-- C2 counterexample: `block_at_max_height` is the back of the ring
buffer, i.e. the most recently appended node.  After accepting two
sibling forks of genesis, the tip is the second fork, not the first
accepted one. -/
theorem C2_tip_is_newest_sibling :
    Chain.addBlock vTrue st0 fork1 = some (true, st1) ∧
    Chain.addBlock vTrue st1 fork2 = some (true, st2) ∧
    Chain.blockAtMaxHeight st2 = some fork2 ∧
    fork2 ≠ fork1 := by
  decide

/-- C2 amended: every accepted block displaces the tip —
`block_at_max_height` returns the most recently appended node, so after
adding sibling forks the tip is the last accepted fork, not the oldest
one. -/
theorem C2_tip_is_last_accepted (v : Nat → Fiitcoin.Tx → Nat → Nat → Bool)
    (st : Chain.State) (b : Chain.Block) (st' : Chain.State)
    (h : Chain.addBlock v st b = some (true, st')) :
    Chain.blockAtMaxHeight st' = some b := by
  rw [Chain.addBlock] at h
  cases hf : Chain.atBlockHash st.chain b.prev with
  | none => rw [hf] at h; exact absurd h (by simp)
  | some node =>
    rw [hf] at h
    simp only at h
    cases hl : Fiitcoin.handleLoop v (b.txs.length + 1) node.2 [] b.txs with
    | none => rw [hl] at h; exact absurd h (by simp)
    | some res =>
      rw [hl] at h
      simp only at h
      by_cases hlen : res.2.length ≠ b.txs.length
      · rw [if_pos hlen] at h
        simp only [Option.some.injEq, Prod.mk.injEq] at h
        exact absurd h.1 (by simp)
      · rw [if_neg hlen] at h
        simp only [Option.some.injEq, Prod.mk.injEq] at h
        rw [← h.2, Chain.blockAtMaxHeight]
        rw [Chain.rbPush_getLast]
        rfl

/-- C2 amended, witness: after accepting `fork1` on genesis, the tip is
`fork1`. -/
theorem C2_tip_is_last_accepted_witness :
    Chain.blockAtMaxHeight st1 = some fork1 :=
  C2_tip_is_last_accepted vTrue st0 fork1 st1 (by decide)

/-!
Claim C8: repeated add_block.
-/

/-- C8 counterexample: `add_block` re-validates against the parent's
unchanged pool and never checks for duplicates, so the identical block is
accepted a second time (a duplicate node is pushed). -/
theorem C8_duplicate_block_accepted_again :
    Chain.addBlock vTrue st0 fork1 = some (true, st1) ∧
    Chain.addBlock vTrue st1 fork1 = some (true, st1dup) := by
  decide

/-- C8 amended: if `add_block(b)` succeeds and the parent lookup is
unchanged afterwards (the parent is still in the retention window with
the same pool), the immediately repeated call `add_block(b)` succeeds
again instead of returning false. -/
theorem C8_repeat_addBlock_succeeds (v : Nat → Fiitcoin.Tx → Nat → Nat → Bool)
    (st : Chain.State) (b : Chain.Block) (st' : Chain.State)
    (h : Chain.addBlock v st b = some (true, st'))
    (hp : Chain.atBlockHash st'.chain b.prev = Chain.atBlockHash st.chain b.prev) :
    ∃ st2, Chain.addBlock v st' b = some (true, st2) := by
  rw [Chain.addBlock] at h
  cases hf : Chain.atBlockHash st.chain b.prev with
  | none => rw [hf] at h; exact absurd h (by simp)
  | some node =>
    rw [hf] at h
    simp only at h
    cases hl : Fiitcoin.handleLoop v (b.txs.length + 1) node.2 [] b.txs with
    | none => rw [hl] at h; exact absurd h (by simp)
    | some res =>
      rw [hl] at h
      simp only at h
      by_cases hlen : res.2.length ≠ b.txs.length
      · rw [if_pos hlen] at h
        simp only [Option.some.injEq, Prod.mk.injEq] at h
        exact absurd h.1 (by simp)
      · refine ⟨{ chain := Chain.rbPush st'.chain (b, res.1),
                  mempool := b.txs.foldl (fun m t => Chain.mempoolRemove m t.hash)
                    st'.mempool }, ?_⟩
        rw [Chain.addBlock, hp, hf]
        simp only
        rw [hl]
        simp only
        rw [if_neg hlen]

/-- C8 amended, witness: re-adding `fork1` to `st1` succeeds. -/
theorem C8_repeat_addBlock_succeeds_witness :
    ∃ st2, Chain.addBlock vTrue st1 fork1 = some (true, st2) :=
  C8_repeat_addBlock_succeeds vTrue st0 fork1 st1 (by decide) (by decide)

/-!
Claim C7: termination of the batch handler.
-/

/-- C7 counterexample: on a batch whose members reference each other's
hashes cyclically (txA spends an output of txB and vice versa) and
resolve nothing in the pool, the first wave applies nothing and defers
the entire batch, so the wave loop reaches a fixpoint and never returns,
for any amount of fuel — `Handler::handle` does not terminate on this
input. -/
theorem C7_cyclic_batch_diverges :
    Fiitcoin.handleIndependent vTrue [] [txA, txB] = ([], [], [txA, txB]) ∧
    ∀ fuel, Fiitcoin.handleLoop vTrue fuel [] [] [txA, txB] = none :=
  ⟨by decide, fun fuel =>
    Fiitcoin.handleLoop_fixpoint_diverges vTrue [] [txA, txB] (by decide) (by decide)
      fuel []⟩

/-- C7 amended: the wave loop terminates on every batch whose
hash-reference relation is acyclic — witnessed by a rank function that
strictly decreases along references into the batch (always the case for
honestly hashed transactions) — and it needs at most one more wave than
there are candidates.  On cyclic references it diverges. -/
theorem C7_acyclic_batch_terminates (v : Nat → Fiitcoin.Tx → Nat → Nat → Bool)
    (pool : Fiitcoin.UTXOPool) (txs : List Fiitcoin.Tx) (r : Fiitcoin.Tx → Nat)
    (hr : ∀ t ∈ txs, ∀ i ∈ t.inputs, ∀ u ∈ txs, u.hash = i.output_tx_hash → r u < r t) :
    (Fiitcoin.handleLoop v (txs.length + 1) pool [] txs).isSome = true :=
  Fiitcoin.handleLoop_terminates_aux v txs r hr (txs.length + 1) txs pool []
    (List.Sublist.refl txs) (by omega)

/-- C7 amended, witness: a singleton batch with no reference into itself
terminates (the constant rank function is a valid acyclicity witness). -/
theorem C7_acyclic_batch_terminates_witness :
    (∀ t ∈ [txC], ∀ i ∈ t.inputs, ∀ u ∈ [txC],
        u.hash = i.output_tx_hash → (fun _ => 0 : Fiitcoin.Tx → Nat) u < 0) ∧
    (Fiitcoin.handleLoop vTrue ([txC].length + 1) [] [] [txC]).isSome = true :=
  ⟨by decide, C7_acyclic_batch_terminates vTrue [] [txC] (fun _ => 0) (by decide)⟩

/-!
Claim C3: crediting the coinbase.
-/

/-- C3 counterexample: `add_block` stores the handler's post-state of the
parent's pool and never adds a coinbase UTXO.  Accepting the empty block
`fork1` on genesis stores the parent pool unchanged, which does not
contain the key (fork1.coinbase.hash, 0) — there is no UTXO worth 625 for
the new coinbase. -/
theorem C3_coinbase_utxo_not_credited :
    Chain.addBlock vTrue st0 fork1 = some (true, st1) ∧
    st1.chain.getLast? = some (fork1, pool0) ∧
    fork1.coinbase.outputs = [{ value := 625, verifying_key := 100 }] ∧
    Fiitcoin.poolContains pool0 (fork1.coinbase.hash, 0) = false := by
  decide

/-- C3 amended: the pool stored with the newly appended node is exactly
the batch handler's post-state of the parent's pool; no coinbase UTXO is
added.  Hence whenever the coinbase hash is fresh — its UTXO key is not
already in the parent pool and no block transaction shares its hash — the
new node's pool does not contain (b.coinbase.hash, 0). -/
theorem C3_new_pool_lacks_fresh_coinbase (v : Nat → Fiitcoin.Tx → Nat → Nat → Bool)
    (st : Chain.State) (b : Chain.Block) (node : Chain.BlockNode) (st' : Chain.State)
    (hp : Chain.atBlockHash st.chain b.prev = some node)
    (h : Chain.addBlock v st b = some (true, st'))
    (hpool : Fiitcoin.poolContains node.2 (b.coinbase.hash, 0) = false)
    (htx : ∀ t ∈ b.txs, t.hash ≠ b.coinbase.hash) :
    ∃ p, st'.chain.getLast? = some (b, p) ∧
      Fiitcoin.poolContains p (b.coinbase.hash, 0) = false := by
  rw [Chain.addBlock, hp] at h
  simp only at h
  cases hl : Fiitcoin.handleLoop v (b.txs.length + 1) node.2 [] b.txs with
  | none => rw [hl] at h; exact absurd h (by simp)
  | some res =>
    rw [hl] at h
    simp only at h
    by_cases hlen : res.2.length ≠ b.txs.length
    · rw [if_pos hlen] at h
      simp only [Option.some.injEq, Prod.mk.injEq] at h
      exact absurd h.1 (by simp)
    · rw [if_neg hlen] at h
      simp only [Option.some.injEq, Prod.mk.injEq] at h
      refine ⟨res.1, ?_, ?_⟩
      · rw [← h.2]
        exact Chain.rbPush_getLast st.chain (b, res.1)
      · by_contra hcon
        have htrue : Fiitcoin.poolContains res.1 (b.coinbase.hash, 0) = true := by
          revert hcon
          cases Fiitcoin.poolContains res.1 (b.coinbase.hash, 0) <;> simp
        rcases Fiitcoin.handleLoop_pool_keys v (b.txs.length + 1) node.2 [] b.txs
            res.1 res.2 (b.coinbase.hash, 0) hl htrue with hc | ⟨t, ht, hth⟩
        · rw [hpool] at hc
          exact absurd hc (by simp)
        · exact htx t ht (by simpa using hth.symm)

/-- C3 amended, witness: accepting the empty block `fork1` on genesis
leaves the coinbase UTXO uncredited. -/
theorem C3_new_pool_lacks_fresh_coinbase_witness :
    ∃ p, st1.chain.getLast? = some (fork1, p) ∧
      Fiitcoin.poolContains p (fork1.coinbase.hash, 0) = false :=
  C3_new_pool_lacks_fresh_coinbase vTrue st0 fork1 (genesisB, pool0) st1
    (by decide) (by decide) (by decide) (by decide)
